import Mathlib

/-!
# Verification of the `JastrowSpin` incremental-evaluation engine (pyqmc)

Shallow embedding of `src/pyqmc/jastrowspin.py` over real arithmetic.

The engine maintains, per walker (configuration) `w`:
* `avalues[w, I, k, s]`  — aggregate one-body sums per ion `I`, basis index `k`,
  spin channel `s ∈ {up, down}`;
* `bvalues[w, l, c]`     — aggregate two-body sums per basis index `l`, pair
  channel `c ∈ {upup, updown, downdown}`;
* `a_partial[e, w, I, k]` — electron `e`'s own one-body basis values;
* `b_partial[e, w, l, s]` — electron `e`'s two-body sums against all other
  electrons of spin `s` (excluding `e` itself),

together with the bound configuration snapshot.  Operations embedded:
`recompute`, `updateinternals` (with acceptance mask), `testvalue`, `value`,
`gradient_laplacian`, `laplacian`, `pgradient`.

Electrons are indexed `0 … nelec−1`; the first `nup` are spin-up
(`mol.nelec[0]`), the rest spin-down.  Machine floats are modelled as real
numbers; `np.exp` is `Real.exp`.
-/

namespace PyqmcJastrow

open Finset

/-- The spin of electron `e`: `0` (up) when `e < nup`, else `1` (down).
Source: `edown = int(e >= self._mol.nelec[0])` and the `:nup` / `nup:` slices. -/
def spinOf (nup : ℕ) {n : ℕ} (e : Fin n) : Fin 2 :=
  if (e : ℕ) < nup then 0 else 1

/-- The electrons of spin `s` (the slices `configs[:, :nup]` / `configs[:, nup:]`). -/
def spinGroup (nup : ℕ) (n : ℕ) (s : Fin 2) : Finset (Fin n) :=
  Finset.univ.filter (fun i => spinOf nup i = s)

/-- The partners of electron `e` of spin `s`: electrons other than `e` whose spin
is `s`.  Source: `not_e = np.arange(self._nelec) != e` together with the
`[..., :sep]` / `[..., sep:]` split, `sep = nup - int(e < nup)` (`_b_update`,
`_update_b_partial`): since electrons are ordered up-block-first, the first
`sep` entries of the `not_e` list are exactly the spin-up electrons other than
`e`, and the rest the spin-down electrons other than `e`. -/
def partnersOf (nup : ℕ) {n : ℕ} (e : Fin n) (s : Fin 2) : Finset (Fin n) :=
  Finset.univ.filter (fun i => i ≠ e ∧ spinOf nup i = s)

/-- Ordered pairs `(i, j)` with `i < j`, both drawn from `S`: the triangular
pair enumeration produced by `configs.dist.dist_matrix` (each unordered pair
once, no self-pairs). -/
def pairsLt {n : ℕ} (S : Finset (Fin n)) : Finset (Fin n × Fin n) :=
  Finset.univ.filter (fun q => q.1 ∈ S ∧ q.2 ∈ S ∧ q.1 < q.2)

/-- The two-body coefficient channel hit by partial-spin slot `t` for an
electron of spin `ed`: the slice `bcoeff[:, edown : edown + 2]` pairs partial
slot `t ∈ {0,1}` with channel `edown + t ∈ {0,1,2}`. -/
def chan (ed t : Fin 2) : Fin 3 :=
  ⟨(ed : ℕ) + (t : ℕ), by have h1 := ed.isLt; have h2 := t.isLt; omega⟩

/-- Basis-function and geometry data consumed by the engine.

Modelled from the spec: the modules `pyqmc.func3d` (basis functions) and
`pyqmc.distance` (`RawDistance`) are not part of the sources; per §2–§3 of the
spec a basis function is a pure scalar function of a separation computed by the
ensemble's distance queries, exposing value, gradient and (componentwise)
Laplacian, and the ion coordinates come from `mol.atom_coords()`.  We absorb
`dist_i`/`norm` composition into pair-position arguments: `aval k q x` is the
`k`-th one-body basis value at the separation of ion position `q` and electron
position `x`, `bval l y x` the `l`-th two-body basis value at the separation of
electron positions `y` (partner) and `x` (mover) — the argument order matching
`dist_i(others, epos)`.  `agrad`/`alap`/`bgrad`/`blap` are the gradient
components and per-component second derivatives (the code sums the latter over
the trailing 3-axis to form Laplacians). -/
structure Basis (P : Type) (natm aexpand nexpand : ℕ) where
  atom : Fin natm → P
  aval : Fin aexpand → P → P → ℝ
  bval : Fin nexpand → P → P → ℝ
  agrad : Fin aexpand → P → P → Fin 3 → ℝ
  alap : Fin aexpand → P → P → Fin 3 → ℝ
  bgrad : Fin nexpand → P → P → Fin 3 → ℝ
  blap : Fin nexpand → P → P → Fin 3 → ℝ

/-- Every concrete pyqmc two-body basis function depends on its arguments only
through the inter-particle distance, which is symmetric; this is the
symmetry assumption used by the cache-consistency proofs. -/
def BvalSymm {P : Type} {natm aexpand nexpand : ℕ}
    (B : Basis P natm aexpand nexpand) : Prop :=
  ∀ l x y, B.bval l x y = B.bval l y x

/-- The coefficient tensors `self.parameters`: `acoeff[I, k, s]` (ion,
one-body index, spin channel) and `bcoeff[l, c]` (two-body index, pair
channel). -/
structure Params (natm aexpand nexpand : ℕ) where
  acoeff : Fin natm → Fin aexpand → Fin 2 → ℝ
  bcoeff : Fin nexpand → Fin 3 → ℝ

/-- The engine state: the bound configuration snapshot `_configscurrent` and
the four cache arrays `_avalues`, `_bvalues`, `_a_partial`, `_b_partial`
(axis order as in the source). -/
structure JState (P : Type) (nconf nelec natm aexpand nexpand : ℕ) where
  configs : Fin nconf → Fin nelec → P
  avalues : Fin nconf → Fin natm → Fin aexpand → Fin 2 → ℝ
  bvalues : Fin nconf → Fin nexpand → Fin 3 → ℝ
  aPartial : Fin nelec → Fin nconf → Fin natm → Fin aexpand → ℝ
  bPartial : Fin nelec → Fin nconf → Fin nexpand → Fin 2 → ℝ

variable {P : Type} {nconf nelec natm aexpand nexpand : ℕ}

/-- `_a_update(e, epos, mask)`: electron `e`'s one-body basis values at the
proposed position, per walker/ion/basis index (the mask only restricts which
walkers the caller reads). -/
def aUpdate (B : Basis P natm aexpand nexpand) (epos : Fin nconf → P) :
    Fin nconf → Fin natm → Fin aexpand → ℝ :=
  fun w I k => B.aval k (B.atom I) (epos w)

/-- `_b_update(e, epos, mask)`: electron `e`'s two-body partial sums at the
proposed position against the *current* positions of all other electrons,
split by the partner's spin. -/
def bUpdate (B : Basis P natm aexpand nexpand) (nup : ℕ)
    (st : JState P nconf nelec natm aexpand nexpand) (e : Fin nelec)
    (epos : Fin nconf → P) : Fin nconf → Fin nexpand → Fin 2 → ℝ :=
  fun w l s => ∑ i ∈ partnersOf nup e s, B.bval l (st.configs w i) (epos w)

/-- The `bvalues` channel contents built by `recompute` from one walker's
positions `x`: channel 0 the triangular (`dist_matrix`, each unordered pair
once, no self-pairs) up-up sum, channel 1 the full Cartesian (`pairwise`)
up-down sum, channel 2 the triangular down-down sum (lines 78–90). -/
def bchan (B : Basis P natm aexpand nexpand) (nup : ℕ) {nelec : ℕ}
    (x : Fin nelec → P) (l : Fin nexpand) (c : Fin 3) : ℝ :=
  if c = 0 then
    ∑ q ∈ pairsLt (spinGroup nup nelec 0), B.bval l (x q.1) (x q.2)
  else if c = 1 then
    ∑ i ∈ spinGroup nup nelec 0, ∑ j ∈ spinGroup nup nelec 1, B.bval l (x i) (x j)
  else
    ∑ q ∈ pairsLt (spinGroup nup nelec 1), B.bval l (x q.1) (x q.2)

/-- `recompute(configs)` cache contents: `_a_partial`/`_b_partial` via
`_a_update`/`_b_update` on each electron's current position, `_bvalues` from
the pair lists per channel (`bchan`), `_avalues` by summing the one-body
values over each spin block. -/
def recomputeState (B : Basis P natm aexpand nexpand) (nup : ℕ)
    (configs : Fin nconf → Fin nelec → P) :
    JState P nconf nelec natm aexpand nexpand where
  configs := configs
  avalues := fun w I k s => ∑ i ∈ spinGroup nup nelec s, B.aval k (B.atom I) (configs w i)
  bvalues := fun w l c => bchan B nup (configs w) l c
  aPartial := fun e w I k => B.aval k (B.atom I) (configs w e)
  bPartial := fun e w l s => ∑ i ∈ partnersOf nup e s, B.bval l (configs w i) (configs w e)

/-- `value()`: the `(sign, logvalue)` pair, `sign = 1` and
`u = Σ bvalues·bcoeff + Σ avalues·acoeff` contracted exactly as the
`np.sum`/`np.einsum` lines 205–207, from the presently cached arrays. -/
def value (prm : Params natm aexpand nexpand)
    (st : JState P nconf nelec natm aexpand nexpand) : ℤ × (Fin nconf → ℝ) :=
  (1, fun w =>
    (∑ l : Fin nexpand, ∑ c : Fin 3, st.bvalues w l c * prm.bcoeff l c)
    + ∑ I : Fin natm, ∑ k : Fin aexpand, ∑ s : Fin 2,
        st.avalues w I k s * prm.acoeff I k s)

/-- `recompute(configs)`: rebuild all caches and return `(1, u)` computed from
them (lines 106–109). -/
def recompute (B : Basis P natm aexpand nexpand)
    (prm : Params natm aexpand nexpand) (nup : ℕ)
    (configs : Fin nconf → Fin nelec → P) :
    (ℤ × (Fin nconf → ℝ)) × JState P nconf nelec natm aexpand nexpand :=
  (value prm (recomputeState B nup configs), recomputeState B nup configs)

/-- `updateinternals(e, epos, mask)`: commit the move of electron `e` for the
masked walkers.  The delta `new partial − cached partial` is added into
`avalues` at `e`'s spin slot and into `bvalues` at channels
`edown … edown+1`; `a_partial[e]` is overwritten; `_update_b_partial` corrects
every other electron's `b_partial` slot of `e`'s spin by the pairwise delta and
overwrites electron `e`'s own row; finally the bound snapshot moves `e`
(masked walkers only throughout). -/
def updateinternals (B : Basis P natm aexpand nexpand) (nup : ℕ)
    (st : JState P nconf nelec natm aexpand nexpand) (e : Fin nelec)
    (epos : Fin nconf → P) (mask : Fin nconf → Bool) :
    JState P nconf nelec natm aexpand nexpand :=
  let ed := spinOf nup e
  { configs := fun w i => if mask w ∧ i = e then epos w else st.configs w i
    avalues := fun w I k s =>
      if mask w ∧ s = ed then
        st.avalues w I k s + (aUpdate B epos w I k - st.aPartial e w I k)
      else st.avalues w I k s
    bvalues := fun w l c =>
      if mask w ∧ (c = chan ed 0 ∨ c = chan ed 1) then
        st.bvalues w l c +
          (bUpdate B nup st e epos w l (if c = chan ed 0 then 0 else 1)
            - st.bPartial e w l (if c = chan ed 0 then 0 else 1))
      else st.bvalues w l c
    aPartial := fun e2 w I k =>
      if mask w ∧ e2 = e then aUpdate B epos w I k else st.aPartial e2 w I k
    bPartial := fun e2 w l s =>
      if mask w then
        if e2 = e then bUpdate B nup st e epos w l s
        else if s = ed then
          st.bPartial e2 w l s +
            (B.bval l (st.configs w e2) (epos w)
              - B.bval l (st.configs w e2) (st.configs w e))
        else st.bPartial e2 w l s
      else st.bPartial e2 w l s }

/-- `testvalue(e, epos, mask)`: the acceptance ratio
`exp(Σ deltab·bcoeff[:, edown:edown+2] + Σ deltaa·acoeff[..., edown])` for each
masked walker (unmasked walkers get no entry, modelled as `none`); no cache is
read other than `a_partial[e]` / `b_partial[e]` and none is written. -/
noncomputable def testvalue (B : Basis P natm aexpand nexpand)
    (prm : Params natm aexpand nexpand) (nup : ℕ)
    (st : JState P nconf nelec natm aexpand nexpand) (e : Fin nelec)
    (epos : Fin nconf → P) (mask : Fin nconf → Bool) : Fin nconf → Option ℝ :=
  fun w =>
    if mask w then
      let ed := spinOf nup e
      some (Real.exp (
        (∑ l : Fin nexpand, ∑ t : Fin 2,
          (bUpdate B nup st e epos w l t - st.bPartial e w l t) * prm.bcoeff l (chan ed t))
        + ∑ I : Fin natm, ∑ k : Fin aexpand,
            (aUpdate B epos w I k - st.aPartial e w I k) * prm.acoeff I k ed))
    else none

/-- `testvalue` as a state transformer: the method body only reads the caches
(its helpers `_a_update`/`_b_update` are pure), so the state component of the
translation is the input state unchanged. -/
noncomputable def testvalueM (B : Basis P natm aexpand nexpand)
    (prm : Params natm aexpand nexpand) (nup : ℕ)
    (st : JState P nconf nelec natm aexpand nexpand) (e : Fin nelec)
    (epos : Fin nconf → P) (mask : Fin nconf → Bool) :
    JState P nconf nelec natm aexpand nexpand × (Fin nconf → Option ℝ) :=
  (st, testvalue B prm nup st e epos mask)

/-- `updateinternals` with the optional mask argument: `mask=None` becomes the
all-true list of length `self._configscurrent.configs.shape[0]` (line 118–119). -/
def updateinternalsOpt (B : Basis P natm aexpand nexpand) (nup : ℕ)
    (st : JState P nconf nelec natm aexpand nexpand) (e : Fin nelec)
    (epos : Fin nconf → P) (maskOpt : Option (Fin nconf → Bool)) :
    JState P nconf nelec natm aexpand nexpand :=
  updateinternals B nup st e epos (maskOpt.getD (fun _ => true))

/-- `testvalue` with the optional mask argument: `mask=None` becomes the
all-true list of length `epos.configs.shape[0]` (lines 287–288). -/
noncomputable def testvalueOpt (B : Basis P natm aexpand nexpand)
    (prm : Params natm aexpand nexpand) (nup : ℕ)
    (st : JState P nconf nelec natm aexpand nexpand) (e : Fin nelec)
    (epos : Fin nconf → P) (maskOpt : Option (Fin nconf → Bool)) :
    Fin nconf → Option ℝ :=
  testvalue B prm nup st e epos (maskOpt.getD (fun _ => true))

/-- `updateinternals` invoked with an explicit mask list, modelling numpy
boolean-mask indexing.

Modelled from the spec: the first use of the mask, `epos.configs[mask]` inside
`_a_update`, is numpy boolean indexing, which rejects a boolean index whose
length differs from the indexed axis (an `IndexError`), before any cache has
been written; a mismatched mask therefore aborts the whole call (`none`),
never truncating or broadcasting. -/
def updateinternalsChk (B : Basis P natm aexpand nexpand) (nup : ℕ)
    (st : JState P nconf nelec natm aexpand nexpand) (e : Fin nelec)
    (epos : Fin nconf → P) (mask : List Bool) :
    Option (JState P nconf nelec natm aexpand nexpand) :=
  if h : mask.length = nconf then
    some (updateinternals B nup st e epos (fun w => mask.get (Fin.cast h.symm w)))
  else none

/-- `pgradient()`: returns the cached `_bvalues` and `_avalues` arrays
(keys `"bcoeff"`, `"acoeff"`). -/
def pgradient (st : JState P nconf nelec natm aexpand nexpand) :
    (Fin nconf → Fin nexpand → Fin 3 → ℝ) × (Fin nconf → Fin natm → Fin aexpand → Fin 2 → ℝ) :=
  (st.bvalues, st.avalues)

/-- `gradient_laplacian(e, epos)`: the gradient of U with respect to electron
`e`'s position and the quantity `lap + Σ_d grad_d²`, where `grad` and `lap`
accumulate the coefficient-weighted basis gradients / (component-summed)
Laplacians over the one-body terms and over the two spin groups of two-body
partners (lines 257–273). -/
def gradient_laplacian (B : Basis P natm aexpand nexpand)
    (prm : Params natm aexpand nexpand) (nup : ℕ)
    (st : JState P nconf nelec natm aexpand nexpand) (e : Fin nelec)
    (epos : Fin nconf → P) : (Fin 3 → Fin nconf → ℝ) × (Fin nconf → ℝ) :=
  let ed := spinOf nup e
  let grad : Fin 3 → Fin nconf → ℝ := fun d w =>
    (∑ k : Fin aexpand, ∑ I : Fin natm,
      prm.acoeff I k ed * B.agrad k (B.atom I) (epos w) d)
    + ∑ l : Fin nexpand,
        (prm.bcoeff l (chan ed 0)
            * ∑ i ∈ partnersOf nup e 0, B.bgrad l (st.configs w i) (epos w) d
          + prm.bcoeff l (chan ed 1)
            * ∑ i ∈ partnersOf nup e 1, B.bgrad l (st.configs w i) (epos w) d)
  let lap : Fin nconf → ℝ := fun w =>
    (∑ k : Fin aexpand, ∑ I : Fin natm, ∑ d : Fin 3,
      prm.acoeff I k ed * B.alap k (B.atom I) (epos w) d)
    + ∑ l : Fin nexpand,
        (prm.bcoeff l (chan ed 0)
            * ∑ i ∈ partnersOf nup e 0, ∑ d : Fin 3, B.blap l (st.configs w i) (epos w) d
          + prm.bcoeff l (chan ed 1)
            * ∑ i ∈ partnersOf nup e 1, ∑ d : Fin 3, B.blap l (st.configs w i) (epos w) d)
  (grad, fun w => lap w + ∑ d : Fin 3, (grad d w) ^ 2)

/-- `laplacian(e, epos) = gradient_laplacian(e, epos)[1]` (lines 275–276). -/
def laplacian (B : Basis P natm aexpand nexpand)
    (prm : Params natm aexpand nexpand) (nup : ℕ)
    (st : JState P nconf nelec natm aexpand nexpand) (e : Fin nelec)
    (epos : Fin nconf → P) : Fin nconf → ℝ :=
  (gradient_laplacian B prm nup st e epos).2

/-- The Laplacian of U itself: the coefficient-weighted sum of the basis
Laplacians appearing in `gradient_laplacian` (the spec's `ΔU`), stated
independently of the returned pair. -/
def lapOfU (B : Basis P natm aexpand nexpand)
    (prm : Params natm aexpand nexpand) (nup : ℕ)
    (st : JState P nconf nelec natm aexpand nexpand) (e : Fin nelec)
    (epos : Fin nconf → P) : Fin nconf → ℝ :=
  fun w =>
    (∑ k : Fin aexpand, ∑ I : Fin natm, ∑ d : Fin 3,
      prm.acoeff I k (spinOf nup e) * B.alap k (B.atom I) (epos w) d)
    + ∑ l : Fin nexpand,
        (prm.bcoeff l (chan (spinOf nup e) 0)
            * ∑ i ∈ partnersOf nup e 0, ∑ d : Fin 3, B.blap l (st.configs w i) (epos w) d
          + prm.bcoeff l (chan (spinOf nup e) 1)
            * ∑ i ∈ partnersOf nup e 1, ∑ d : Fin 3, B.blap l (st.configs w i) (epos w) d)

/-- Sequentially commit, for every electron in index order, a move to its
position in `target` (all-true mask): the incremental-update path of the
consistency property. -/
def applyAll (B : Basis P natm aexpand nexpand) (nup : ℕ)
    (st : JState P nconf nelec natm aexpand nexpand)
    (target : Fin nconf → Fin nelec → P) :
    JState P nconf nelec natm aexpand nexpand :=
  (List.finRange nelec).foldl
    (fun s e => updateinternals B nup s e (fun w => target w e) (fun _ => true)) st

/-! ## Finset helper lemmas -/

section SumLemmas

variable {n : ℕ}

lemma mem_spinGroup {nup : ℕ} {i : Fin n} {s : Fin 2} :
    i ∈ spinGroup nup n s ↔ spinOf nup i = s := by
  simp [spinGroup]

lemma mem_partnersOf {nup : ℕ} {i e : Fin n} {s : Fin 2} :
    i ∈ partnersOf nup e s ↔ i ≠ e ∧ spinOf nup i = s := by
  simp [partnersOf]

lemma partnersOf_eq_erase {nup : ℕ} (e : Fin n) (s : Fin 2) :
    partnersOf nup e s = (spinGroup nup n s).erase e := by
  ext i
  simp only [mem_partnersOf, Finset.mem_erase, mem_spinGroup]

lemma partnersOf_eq_group {nup : ℕ} {e : Fin n} {s : Fin 2} (h : spinOf nup e ≠ s) :
    partnersOf nup e s = spinGroup nup n s := by
  ext i
  simp only [mem_partnersOf, mem_spinGroup]
  constructor
  · rintro ⟨-, h2⟩; exact h2
  · intro h2; exact ⟨fun he => h (he ▸ h2), h2⟩

/-- Replacing the value at one member of the index set inside a sum. -/
lemma sum_if_update_mem {S : Finset (Fin n)} {e : Fin n} (he : e ∈ S)
    (f : Fin n → ℝ) (g : ℝ) :
    ∑ i ∈ S, (if i = e then g else f i) = (∑ i ∈ S, f i) - f e + g := by
  rw [← Finset.add_sum_erase S (fun i => if i = e then g else f i) he,
    ← Finset.add_sum_erase S f he]
  have h1 : ∑ i ∈ S.erase e, (if i = e then g else f i) = ∑ i ∈ S.erase e, f i := by
    refine Finset.sum_congr rfl fun i hi => ?_
    rw [if_neg (Finset.mem_erase.mp hi).1]
  rw [h1, if_pos rfl]
  ring

/-- Moving one element of `S`: the change of a triangular pair sum over a
symmetric kernel is the sum of pairwise deltas against every other member. -/
lemma sum_pairsLt_update {S : Finset (Fin n)} {e : Fin n} (he : e ∈ S)
    (k : P → P → ℝ) (hk : ∀ a b, k a b = k b a)
    (x x' : Fin n → P) (p : P) (hx'e : x' e = p) (hx' : ∀ i, i ≠ e → x' i = x i) :
    ∑ q ∈ pairsLt S, k (x' q.1) (x' q.2)
      = (∑ q ∈ pairsLt S, k (x q.1) (x q.2))
        + ∑ i ∈ S.erase e, (k (x i) p - k (x i) (x e)) := by
  classical
  have expand : ∀ (y : Fin n → P),
      ∑ q ∈ pairsLt S, k (y q.1) (y q.2)
        = ∑ i : Fin n, ∑ j : Fin n,
            if i ∈ S ∧ j ∈ S ∧ i < j then k (y i) (y j) else 0 := by
    intro y
    rw [pairsLt, Finset.sum_filter, Fintype.sum_prod_type]
  have split : ∀ (g : Fin n → ℝ),
      ∑ i : Fin n, g i = g e + ∑ i ∈ Finset.univ.erase e, g i :=
    fun g => (Finset.add_sum_erase _ g (Finset.mem_univ e)).symm
  have decomp : ∀ (A : Fin n → Fin n → ℝ),
      ∑ i : Fin n, ∑ j : Fin n, A i j
        = A e e + (∑ j ∈ Finset.univ.erase e, A e j)
          + ((∑ i ∈ Finset.univ.erase e, A i e)
            + ∑ i ∈ Finset.univ.erase e, ∑ j ∈ Finset.univ.erase e, A i j) := by
    intro A
    rw [split (fun i => ∑ j : Fin n, A i j), split (A e)]
    have h2 : ∑ i ∈ Finset.univ.erase e, ∑ j : Fin n, A i j
        = ∑ i ∈ Finset.univ.erase e, (A i e + ∑ j ∈ Finset.univ.erase e, A i j) :=
      Finset.sum_congr rfl fun i _ => split (A i)
    rw [h2, Finset.sum_add_distrib]
  rw [expand x', expand x, decomp, decomp]
  have hee : ∀ (y : Fin n → P),
      (if e ∈ S ∧ e ∈ S ∧ e < e then k (y e) (y e) else 0) = 0 := by
    intro y
    rw [if_neg]
    rintro ⟨-, -, h⟩
    exact lt_irrefl e h
  rw [hee, hee]
  have hrest : ∑ i ∈ Finset.univ.erase e, ∑ j ∈ Finset.univ.erase e,
        (if i ∈ S ∧ j ∈ S ∧ i < j then k (x' i) (x' j) else 0)
      = ∑ i ∈ Finset.univ.erase e, ∑ j ∈ Finset.univ.erase e,
          (if i ∈ S ∧ j ∈ S ∧ i < j then k (x i) (x j) else 0) := by
    refine Finset.sum_congr rfl fun i hi => Finset.sum_congr rfl fun j hj => ?_
    rw [hx' i (Finset.mem_erase.mp hi).1, hx' j (Finset.mem_erase.mp hj).1]
  rw [hrest]
  have hrow : ∑ j ∈ Finset.univ.erase e,
        (if e ∈ S ∧ j ∈ S ∧ e < j then k (x' e) (x' j) else 0)
      = ∑ j ∈ Finset.univ.erase e,
          (if e ∈ S ∧ j ∈ S ∧ e < j then k (x e) (x j) else 0)
        + ∑ j ∈ Finset.univ.erase e,
            (if j ∈ S ∧ e < j then k (x j) p - k (x j) (x e) else 0) := by
    rw [← Finset.sum_add_distrib]
    refine Finset.sum_congr rfl fun j hj => ?_
    have hj' := (Finset.mem_erase.mp hj).1
    rw [hx'e, hx' j hj']
    by_cases hc : j ∈ S ∧ e < j
    · rw [if_pos ⟨he, hc.1, hc.2⟩, if_pos ⟨he, hc.1, hc.2⟩, if_pos hc,
        hk p (x j), hk (x e) (x j)]
      ring
    · have hc' : ¬(e ∈ S ∧ j ∈ S ∧ e < j) := by tauto
      rw [if_neg hc', if_neg hc', if_neg hc]
      ring
  have hcol : ∑ i ∈ Finset.univ.erase e,
        (if i ∈ S ∧ e ∈ S ∧ i < e then k (x' i) (x' e) else 0)
      = ∑ i ∈ Finset.univ.erase e,
          (if i ∈ S ∧ e ∈ S ∧ i < e then k (x i) (x e) else 0)
        + ∑ i ∈ Finset.univ.erase e,
            (if i ∈ S ∧ i < e then k (x i) p - k (x i) (x e) else 0) := by
    rw [← Finset.sum_add_distrib]
    refine Finset.sum_congr rfl fun i hi => ?_
    have hi' := (Finset.mem_erase.mp hi).1
    rw [hx'e, hx' i hi']
    by_cases hc : i ∈ S ∧ i < e
    · rw [if_pos ⟨hc.1, he, hc.2⟩, if_pos ⟨hc.1, he, hc.2⟩, if_pos hc]
      ring
    · have hc' : ¬(i ∈ S ∧ e ∈ S ∧ i < e) := by tauto
      rw [if_neg hc', if_neg hc', if_neg hc]
      ring
  rw [hrow, hcol]
  have hjoin : ∑ j ∈ Finset.univ.erase e,
        (if j ∈ S ∧ e < j then k (x j) p - k (x j) (x e) else 0)
      + ∑ i ∈ Finset.univ.erase e,
          (if i ∈ S ∧ i < e then k (x i) p - k (x i) (x e) else 0)
      = ∑ i ∈ S.erase e, (k (x i) p - k (x i) (x e)) := by
    rw [← Finset.sum_add_distrib]
    have h3 : ∑ i ∈ Finset.univ.erase e,
          ((if i ∈ S ∧ e < i then k (x i) p - k (x i) (x e) else 0)
            + (if i ∈ S ∧ i < e then k (x i) p - k (x i) (x e) else 0))
        = ∑ i ∈ Finset.univ.erase e,
            (if i ∈ S then k (x i) p - k (x i) (x e) else 0) := by
      refine Finset.sum_congr rfl fun i hi => ?_
      have hi' := (Finset.mem_erase.mp hi).1
      rcases lt_or_gt_of_ne hi' with hlt | hgt
      · by_cases hiS : i ∈ S
        · rw [if_neg (fun hc => lt_asymm hlt hc.2), if_pos ⟨hiS, hlt⟩, if_pos hiS]
          ring
        · rw [if_neg (by tauto), if_neg (by tauto), if_neg hiS]
          ring
      · by_cases hiS : i ∈ S
        · rw [if_pos ⟨hiS, hgt⟩, if_neg (fun hc => lt_asymm hc.2 hgt), if_pos hiS]
          ring
        · rw [if_neg (by tauto), if_neg (by tauto), if_neg hiS]
          ring
    rw [h3, ← Finset.sum_filter]
    refine Finset.sum_congr ?_ fun i _ => rfl
    ext i
    simp only [Finset.mem_filter, Finset.mem_erase, Finset.mem_univ, true_and]
    tauto
  rw [← hjoin]
  ring

/-- Moving the left-group member `e` of a full cross sum. -/
lemma sum_cross_update_left {U D : Finset (Fin n)} {e : Fin n}
    (heU : e ∈ U) (heD : e ∉ D)
    (k : P → P → ℝ) (hk : ∀ a b, k a b = k b a)
    (x x' : Fin n → P) (p : P) (hx'e : x' e = p) (hx' : ∀ i, i ≠ e → x' i = x i) :
    ∑ i ∈ U, ∑ j ∈ D, k (x' i) (x' j)
      = (∑ i ∈ U, ∑ j ∈ D, k (x i) (x j))
        + ∑ j ∈ D, (k (x j) p - k (x j) (x e)) := by
  classical
  have hD : ∀ (y : P), ∑ j ∈ D, k y (x' j) = ∑ j ∈ D, k y (x j) := by
    intro y
    refine Finset.sum_congr rfl fun j hj => ?_
    rw [hx' j (fun h => heD (h ▸ hj))]
  rw [← Finset.add_sum_erase U _ heU, ← Finset.add_sum_erase U _ heU]
  have hrest : ∑ i ∈ U.erase e, ∑ j ∈ D, k (x' i) (x' j)
      = ∑ i ∈ U.erase e, ∑ j ∈ D, k (x i) (x j) := by
    refine Finset.sum_congr rfl fun i hi => ?_
    rw [hD, hx' i (Finset.mem_erase.mp hi).1]
  rw [hrest, hD, hx'e]
  have hrowe : ∑ j ∈ D, k p (x j)
      = ∑ j ∈ D, k (x e) (x j) + ∑ j ∈ D, (k (x j) p - k (x j) (x e)) := by
    rw [← Finset.sum_add_distrib]
    refine Finset.sum_congr rfl fun j _ => ?_
    rw [hk p (x j), hk (x e) (x j)]
    ring
  rw [hrowe]
  ring

/-- Moving the right-group member `e` of a full cross sum. -/
lemma sum_cross_update_right {U D : Finset (Fin n)} {e : Fin n}
    (heU : e ∉ U) (heD : e ∈ D)
    (k : P → P → ℝ)
    (x x' : Fin n → P) (p : P) (hx'e : x' e = p) (hx' : ∀ i, i ≠ e → x' i = x i) :
    ∑ i ∈ U, ∑ j ∈ D, k (x' i) (x' j)
      = (∑ i ∈ U, ∑ j ∈ D, k (x i) (x j))
        + ∑ i ∈ U, (k (x i) p - k (x i) (x e)) := by
  classical
  have hswap : ∀ (y : Fin n → P), ∑ i ∈ U, ∑ j ∈ D, k (y i) (y j)
      = ∑ j ∈ D, ∑ i ∈ U, k (y i) (y j) := fun y => Finset.sum_comm
  rw [hswap, hswap, ← Finset.add_sum_erase D _ heD, ← Finset.add_sum_erase D _ heD]
  have hU : ∀ (q : P), ∑ i ∈ U, k (x' i) q = ∑ i ∈ U, k (x i) q := by
    intro q
    refine Finset.sum_congr rfl fun i hi => ?_
    rw [hx' i (fun h => heU (h ▸ hi))]
  have hrest : ∑ j ∈ D.erase e, ∑ i ∈ U, k (x' i) (x' j)
      = ∑ j ∈ D.erase e, ∑ i ∈ U, k (x i) (x j) := by
    refine Finset.sum_congr rfl fun j hj => ?_
    rw [hU, hx' j (Finset.mem_erase.mp hj).1]
  rw [hrest, hU, hx'e]
  have hcole : ∑ i ∈ U, k (x i) p
      = ∑ i ∈ U, k (x i) (x e) + ∑ i ∈ U, (k (x i) p - k (x i) (x e)) := by
    rw [← Finset.sum_add_distrib]
    refine Finset.sum_congr rfl fun i _ => ?_
    ring
  rw [hcole]
  ring

end SumLemmas

lemma mem_pairsLt {n : ℕ} {S : Finset (Fin n)} {q : Fin n × Fin n} :
    q ∈ pairsLt S ↔ q.1 ∈ S ∧ q.2 ∈ S ∧ q.1 < q.2 := by
  simp [pairsLt]

/-! ## Unfolding lemmas for `updateinternals` -/

section Unfold

variable (B : Basis P natm aexpand nexpand) (nup : ℕ)
  (st : JState P nconf nelec natm aexpand nexpand) (e : Fin nelec)
  (epos : Fin nconf → P) (mask : Fin nconf → Bool)

lemma ui_configs :
    (updateinternals B nup st e epos mask).configs
      = fun w i => if mask w ∧ i = e then epos w else st.configs w i := rfl

lemma ui_avalues :
    (updateinternals B nup st e epos mask).avalues
      = fun w I k s =>
          if mask w ∧ s = spinOf nup e then
            st.avalues w I k s + (aUpdate B epos w I k - st.aPartial e w I k)
          else st.avalues w I k s := rfl

lemma ui_bvalues :
    (updateinternals B nup st e epos mask).bvalues
      = fun w l c =>
          if mask w ∧ (c = chan (spinOf nup e) 0 ∨ c = chan (spinOf nup e) 1) then
            st.bvalues w l c +
              (bUpdate B nup st e epos w l (if c = chan (spinOf nup e) 0 then 0 else 1)
                - st.bPartial e w l (if c = chan (spinOf nup e) 0 then 0 else 1))
          else st.bvalues w l c := rfl

lemma ui_aPartial :
    (updateinternals B nup st e epos mask).aPartial
      = fun e2 w I k =>
          if mask w ∧ e2 = e then aUpdate B epos w I k else st.aPartial e2 w I k := rfl

lemma ui_bPartial :
    (updateinternals B nup st e epos mask).bPartial
      = fun e2 w l s =>
          if mask w then
            if e2 = e then bUpdate B nup st e epos w l s
            else if s = spinOf nup e then
              st.bPartial e2 w l s +
                (B.bval l (st.configs w e2) (epos w)
                  - B.bval l (st.configs w e2) (st.configs w e))
            else st.bPartial e2 w l s
          else st.bPartial e2 w l s := rfl

end Unfold

/-! ## Cache invariants

`inv1`/`inv2`/`inv3` are the spec's invariants I1/I2/I3; `inv0` additionally
states that `a_partial` holds the one-body values of the bound snapshot. -/

section Invariants

variable (B : Basis P natm aexpand nexpand) (nup : ℕ)

/-- Invariant I1: each spin slot of `avalues` is the sum of `a_partial` over
the electrons of that spin. -/
def inv1 (st : JState P nconf nelec natm aexpand nexpand) (w : Fin nconf) : Prop :=
  ∀ (I : Fin natm) (k : Fin aexpand) (s : Fin 2),
    st.avalues w I k s = ∑ i ∈ spinGroup nup nelec s, st.aPartial i w I k

/-- Invariant I2: the `bvalues` channels hold the triangular same-spin pair
sums (each unordered pair once) and the full up-down cross sum, evaluated at
the bound snapshot — i.e. exactly what `recompute` builds from these
positions. -/
def inv2 (st : JState P nconf nelec natm aexpand nexpand) (w : Fin nconf) : Prop :=
  ∀ (l : Fin nexpand) (c : Fin 3),
    st.bvalues w l c = bchan B nup (st.configs w) l c

/-- Invariant I3: each `b_partial[e]` slot is the pair sum of electron `e`
against exactly the other electrons of the given spin — electron `e` is never
paired with itself. -/
def inv3 (st : JState P nconf nelec natm aexpand nexpand) (w : Fin nconf) : Prop :=
  ∀ (e : Fin nelec) (l : Fin nexpand) (s : Fin 2),
    st.bPartial e w l s
      = ∑ i ∈ partnersOf nup e s, B.bval l (st.configs w i) (st.configs w e)

/-- `a_partial` holds the one-body basis values of the bound snapshot. -/
def inv0 (st : JState P nconf nelec natm aexpand nexpand) (w : Fin nconf) : Prop :=
  ∀ (e : Fin nelec) (I : Fin natm) (k : Fin aexpand),
    st.aPartial e w I k = B.aval k (B.atom I) (st.configs w e)

/-- All four cache invariants at walker `w`. -/
def invAll (st : JState P nconf nelec natm aexpand nexpand) (w : Fin nconf) : Prop :=
  inv0 B st w ∧ inv1 nup st w ∧ inv2 B nup st w ∧ inv3 B nup st w

lemma invAll_recompute (configs : Fin nconf → Fin nelec → P) (w : Fin nconf) :
    invAll B nup (recomputeState B nup configs) w :=
  ⟨fun _ _ _ => rfl, fun _ _ _ => rfl, fun _ _ => rfl, fun _ _ _ => rfl⟩

variable {st : JState P nconf nelec natm aexpand nexpand} {e : Fin nelec}
  {epos : Fin nconf → P} {mask : Fin nconf → Bool} {w : Fin nconf}

lemma inv0_preserved (h0 : inv0 B st w) (hm : mask w = true) :
    inv0 B (updateinternals B nup st e epos mask) w := by
  intro e2 I k
  simp only [ui_aPartial, ui_configs, hm, true_and]
  by_cases he2 : e2 = e
  · subst he2
    rw [if_pos rfl, if_pos rfl]
    rfl
  · rw [if_neg he2, if_neg he2, h0]

lemma inv1_preserved (h1 : inv1 nup st w) (hm : mask w = true) :
    inv1 nup (updateinternals B nup st e epos mask) w := by
  intro I k s
  simp only [ui_avalues, ui_aPartial, hm, true_and]
  by_cases hs : s = spinOf nup e
  · rw [if_pos hs]
    have hmem : e ∈ spinGroup nup nelec s := mem_spinGroup.mpr hs.symm
    rw [sum_if_update_mem hmem (fun i => st.aPartial i w I k) (aUpdate B epos w I k),
      h1]
    ring
  · rw [if_neg hs]
    have hsum : ∑ i ∈ spinGroup nup nelec s,
          (if i = e then aUpdate B epos w I k else st.aPartial i w I k)
        = ∑ i ∈ spinGroup nup nelec s, st.aPartial i w I k := by
      refine Finset.sum_congr rfl fun i hi => ?_
      have hie : i ≠ e := by
        intro hie
        exact hs (by rw [← mem_spinGroup.mp hi, hie])
      rw [if_neg hie]
    rw [hsum, h1]

lemma inv3_preserved (hb : BvalSymm B) (h3 : inv3 B nup st w) (hm : mask w = true) :
    inv3 B nup (updateinternals B nup st e epos mask) w := by
  intro e2 l s
  simp only [ui_bPartial, ui_configs, hm, true_and, if_true]
  by_cases he2 : e2 = e
  · subst he2
    rw [if_pos rfl]
    rw [if_pos rfl]
    refine Finset.sum_congr rfl fun i hi => ?_
    have hie : i ≠ e2 := (mem_partnersOf.mp hi).1
    rw [if_neg hie]
  · rw [if_neg he2]
    have hcfg2 : (if e2 = e then epos w else st.configs w e2)
        = st.configs w e2 := if_neg he2
    by_cases hs : s = spinOf nup e
    · rw [if_pos hs]
      have hmem : e ∈ partnersOf nup e2 s :=
        mem_partnersOf.mpr ⟨fun hc => he2 hc.symm, hs.symm⟩
      have hsum : ∑ i ∈ partnersOf nup e2 s,
            B.bval l (if i = e then epos w else st.configs w i)
              (if e2 = e then epos w else st.configs w e2)
          = (∑ i ∈ partnersOf nup e2 s, B.bval l (st.configs w i) (st.configs w e2))
              - B.bval l (st.configs w e) (st.configs w e2)
              + B.bval l (epos w) (st.configs w e2) := by
        have hcongr : ∀ i ∈ partnersOf nup e2 s,
            B.bval l (if i = e then epos w else st.configs w i)
                (if e2 = e then epos w else st.configs w e2)
              = (if i = e then B.bval l (epos w) (st.configs w e2)
                  else B.bval l (st.configs w i) (st.configs w e2)) := by
          intro i _
          rw [hcfg2]
          by_cases hie : i = e
          · rw [if_pos hie, if_pos hie]
          · rw [if_neg hie, if_neg hie]
        rw [Finset.sum_congr rfl hcongr, sum_if_update_mem hmem]
      rw [hsum, ← h3]
      rw [hb l (st.configs w e2) (epos w), hb l (st.configs w e2) (st.configs w e)]
      ring
    · rw [if_neg hs, h3]
      refine Finset.sum_congr rfl fun i hi => ?_
      have hie : i ≠ e := by
        intro hie
        exact hs (by rw [← (mem_partnersOf.mp hi).2, hie])
      rw [hcfg2, if_neg hie]

lemma bchan_c0 (x : Fin nelec → P) (l : Fin nexpand) :
    bchan B nup x l 0
      = ∑ q ∈ pairsLt (spinGroup nup nelec 0), B.bval l (x q.1) (x q.2) := by
  rw [bchan, if_pos rfl]

lemma bchan_c1 (x : Fin nelec → P) (l : Fin nexpand) :
    bchan B nup x l 1
      = ∑ i ∈ spinGroup nup nelec 0, ∑ j ∈ spinGroup nup nelec 1,
          B.bval l (x i) (x j) := by
  rw [bchan, if_neg (by decide), if_pos rfl]

lemma bchan_c2 (x : Fin nelec → P) (l : Fin nexpand) :
    bchan B nup x l 2
      = ∑ q ∈ pairsLt (spinGroup nup nelec 1), B.bval l (x q.1) (x q.2) := by
  rw [bchan, if_neg (by decide), if_neg (by decide)]

/-- How each `bvalues` channel changes when electron `e` moves: the two
channels touching `e`'s spin change by the pairwise deltas against the
partners of the corresponding spin, the remaining channel is unchanged. -/
lemma bchan_move (hb : BvalSymm B) (x x' : Fin nelec → P) (p : P) (e : Fin nelec)
    (hx'e : x' e = p) (hx' : ∀ i, i ≠ e → x' i = x i) (l : Fin nexpand) :
    (bchan B nup x' l (chan (spinOf nup e) 0)
        = bchan B nup x l (chan (spinOf nup e) 0)
          + ∑ i ∈ partnersOf nup e 0, (B.bval l (x i) p - B.bval l (x i) (x e)))
    ∧ (bchan B nup x' l (chan (spinOf nup e) 1)
        = bchan B nup x l (chan (spinOf nup e) 1)
          + ∑ i ∈ partnersOf nup e 1, (B.bval l (x i) p - B.bval l (x i) (x e)))
    ∧ ∀ c : Fin 3, c ≠ chan (spinOf nup e) 0 → c ≠ chan (spinOf nup e) 1 →
        bchan B nup x' l c = bchan B nup x l c := by
  by_cases hup : (e : ℕ) < nup
  · have hse : spinOf nup e = 0 := by simp [spinOf, hup]
    have hmem0 : e ∈ spinGroup nup nelec 0 := mem_spinGroup.mpr hse
    have hmem1 : e ∉ spinGroup nup nelec 1 := by
      intro hc
      rw [mem_spinGroup, hse] at hc
      exact absurd hc (by decide)
    rw [hse]
    refine ⟨?_, ?_, ?_⟩
    · have hc00 : chan 0 0 = (0 : Fin 3) := by decide
      rw [hc00, bchan_c0, bchan_c0,
        sum_pairsLt_update hmem0 (B.bval l) (hb l) x x' p hx'e hx',
        partnersOf_eq_erase e 0]
    · have hc01 : chan 0 1 = (1 : Fin 3) := by decide
      have hgrp : partnersOf nup e 1 = spinGroup nup nelec 1 :=
        partnersOf_eq_group (by rw [hse]; decide)
      rw [hc01, bchan_c1, bchan_c1,
        sum_cross_update_left hmem0 hmem1 (B.bval l) (hb l) x x' p hx'e hx', hgrp]
    · intro c hne0 hne1
      have hc2 : c = 2 := by
        have h0 := Fin.val_ne_of_ne hne0
        have h1 := Fin.val_ne_of_ne hne1
        have hcv := c.isLt
        apply Fin.ext
        simp only [chan, hse] at h0 h1
        omega
      rw [hc2, bchan_c2, bchan_c2]
      refine Finset.sum_congr rfl fun q hq => ?_
      obtain ⟨hq1, hq2, -⟩ := mem_pairsLt.mp hq
      have hne : ∀ i : Fin nelec, i ∈ spinGroup nup nelec 1 → i ≠ e := by
        intro i hi hc
        exact hmem1 (hc ▸ hi)
      rw [hx' q.1 (hne q.1 hq1), hx' q.2 (hne q.2 hq2)]
  · have hse : spinOf nup e = 1 := by simp [spinOf, hup]
    have hmem1 : e ∈ spinGroup nup nelec 1 := mem_spinGroup.mpr hse
    have hmem0 : e ∉ spinGroup nup nelec 0 := by
      intro hc
      rw [mem_spinGroup, hse] at hc
      exact absurd hc (by decide)
    rw [hse]
    refine ⟨?_, ?_, ?_⟩
    · have hc10 : chan 1 0 = (1 : Fin 3) := by decide
      have hgrp : partnersOf nup e 0 = spinGroup nup nelec 0 :=
        partnersOf_eq_group (by rw [hse]; decide)
      rw [hc10, bchan_c1, bchan_c1,
        sum_cross_update_right hmem0 hmem1 (B.bval l) x x' p hx'e hx', hgrp]
    · have hc11 : chan 1 1 = (2 : Fin 3) := by decide
      rw [hc11, bchan_c2, bchan_c2,
        sum_pairsLt_update hmem1 (B.bval l) (hb l) x x' p hx'e hx',
        partnersOf_eq_erase e 1]
    · intro c hne0 hne1
      have hc0 : c = 0 := by
        have h0 := Fin.val_ne_of_ne hne0
        have h1 := Fin.val_ne_of_ne hne1
        have hcv := c.isLt
        apply Fin.ext
        simp only [chan, hse] at h0 h1
        omega
      rw [hc0, bchan_c0, bchan_c0]
      refine Finset.sum_congr rfl fun q hq => ?_
      obtain ⟨hq1, hq2, -⟩ := mem_pairsLt.mp hq
      have hne : ∀ i : Fin nelec, i ∈ spinGroup nup nelec 0 → i ≠ e := by
        intro i hi hc
        exact hmem0 (hc ▸ hi)
      rw [hx' q.1 (hne q.1 hq1), hx' q.2 (hne q.2 hq2)]

lemma inv2_preserved (hb : BvalSymm B) (h2 : inv2 B nup st w) (h3 : inv3 B nup st w)
    (hm : mask w = true) :
    inv2 B nup (updateinternals B nup st e epos mask) w := by
  intro l c
  simp only [ui_bvalues, ui_configs, hm, true_and]
  obtain ⟨hc0, hc1, hcother⟩ :=
    bchan_move B nup hb (st.configs w)
      (fun i => if i = e then epos w else st.configs w i) (epos w) e
      (if_pos rfl) (fun i hi => if_neg hi) l
  have hdelta : ∀ t : Fin 2,
      bUpdate B nup st e epos w l t - st.bPartial e w l t
        = ∑ i ∈ partnersOf nup e t,
            (B.bval l (st.configs w i) (epos w)
              - B.bval l (st.configs w i) (st.configs w e)) := by
    intro t
    rw [bUpdate, h3, ← Finset.sum_sub_distrib]
  by_cases h0 : c = chan (spinOf nup e) 0
  · rw [if_pos (Or.inl h0), if_pos h0, hdelta 0, h2, h0, hc0]
  · by_cases h1 : c = chan (spinOf nup e) 1
    · rw [if_pos (Or.inr h1), if_neg h0, hdelta 1, h2, h1, hc1]
    · rw [if_neg (by tauto), h2, hcother c h0 h1]

/-- Bundled preservation: all four cache invariants survive a masked commit at
every masked walker. -/
lemma invAll_preserved (hb : BvalSymm B) (h : invAll B nup st w) (hm : mask w = true) :
    invAll B nup (updateinternals B nup st e epos mask) w :=
  ⟨inv0_preserved B nup h.1 hm, inv1_preserved B nup h.2.1 hm,
    inv2_preserved B nup hb h.2.2.1 h.2.2.2 hm, inv3_preserved B nup hb h.2.2.2 hm⟩

end Invariants

/-! ## Consistency of the incremental path with the recompute path -/

section Consistency

variable (B : Basis P natm aexpand nexpand) (nup : ℕ)

lemma chan00 : chan 0 0 = (0 : Fin 3) := by decide

lemma chan01 : chan 0 1 = (1 : Fin 3) := by decide

lemma chan10 : chan 1 0 = (1 : Fin 3) := by decide

lemma chan11 : chan 1 1 = (2 : Fin 3) := by decide

/-- A state whose caches satisfy all invariants has the same `value()` as the
state `recompute` would build from its own snapshot. -/
lemma value_of_invAll (prm : Params natm aexpand nexpand)
    {st : JState P nconf nelec natm aexpand nexpand}
    (h : ∀ w, invAll B nup st w) :
    value prm st = value prm (recomputeState B nup st.configs) := by
  simp only [value, Prod.mk.injEq]
  refine ⟨trivial, funext fun w => ?_⟩
  have hav : ∀ (I : Fin natm) (k : Fin aexpand) (s : Fin 2),
      st.avalues w I k s = (recomputeState B nup st.configs).avalues w I k s := by
    intro I k s
    rw [(h w).2.1 I k s]
    exact Finset.sum_congr rfl fun i _ => (h w).1 i I k
  congr 1
  · exact Finset.sum_congr rfl fun l _ => Finset.sum_congr rfl fun c _ => by
      rw [(h w).2.2.1 l c]
      rfl
  · exact Finset.sum_congr rfl fun I _ => Finset.sum_congr rfl fun k _ =>
      Finset.sum_congr rfl fun s _ => by rw [hav I k s]

/-- Committing a list of single-electron moves (all-true mask) preserves all
invariants and moves exactly the listed electrons to their target positions. -/
lemma foldl_updates (hb : BvalSymm B) (target : Fin nconf → Fin nelec → P) :
    ∀ (L : List (Fin nelec)) (st : JState P nconf nelec natm aexpand nexpand),
      (∀ w, invAll B nup st w) →
      (∀ w, invAll B nup
        (L.foldl (fun s e =>
          updateinternals B nup s e (fun w2 => target w2 e) (fun _ => true)) st) w)
      ∧ ∀ (w : Fin nconf) (i : Fin nelec),
          (L.foldl (fun s e =>
            updateinternals B nup s e (fun w2 => target w2 e) (fun _ => true)) st).configs w i
          = if i ∈ L then target w i else st.configs w i := by
  intro L
  induction L with
  | nil =>
    intro st h
    refine ⟨h, fun w i => ?_⟩
    simp
  | cons e L ih =>
    intro st h
    have h1 : ∀ w, invAll B nup
        (updateinternals B nup st e (fun w2 => target w2 e) (fun _ => true)) w :=
      fun w => invAll_preserved B nup hb (h w) rfl
    obtain ⟨ha, hc⟩ :=
      ih (updateinternals B nup st e (fun w2 => target w2 e) (fun _ => true)) h1
    rw [List.foldl_cons]
    refine ⟨ha, fun w i => ?_⟩
    rw [hc w i]
    by_cases hiL : i ∈ L
    · rw [if_pos hiL, if_pos (List.mem_cons_of_mem e hiL)]
    · rw [if_neg hiL]
      simp only [ui_configs, eq_self_iff_true, true_and]
      by_cases hie : i = e
      · subst hie
        rw [if_pos rfl, if_pos (List.mem_cons_self i L)]
      · rw [if_neg hie, if_neg (by simp [hie, hiL])]

end Consistency

/-! ## Claim theorems -/

/-- C1: with an all-true mask, `testvalue(e, p)` returns per walker exactly
`exp(logvalue_after − logvalue_before)`, where the before/after logvalues are
the `value()` components around the same move committed with
`updateinternals(e, p)`. -/
theorem testvalue_eq_exp_delta_logvalue
    (B : Basis P natm aexpand nexpand) (prm : Params natm aexpand nexpand) (nup : ℕ)
    (st : JState P nconf nelec natm aexpand nexpand) (e : Fin nelec)
    (epos : Fin nconf → P) (w : Fin nconf) :
    testvalue B prm nup st e epos (fun _ => true) w
      = some (Real.exp
          ((value prm (updateinternals B nup st e epos (fun _ => true))).2 w
            - (value prm st).2 w)) := by
  simp only [testvalue, value]
  rw [if_pos trivial]
  congr 1
  congr 1
  have hBsum : ∑ l : Fin nexpand, ∑ c : Fin 3,
        (updateinternals B nup st e epos (fun _ => true)).bvalues w l c * prm.bcoeff l c
      = (∑ l : Fin nexpand, ∑ c : Fin 3, st.bvalues w l c * prm.bcoeff l c)
        + ∑ l : Fin nexpand, ∑ t : Fin 2,
            (bUpdate B nup st e epos w l t - st.bPartial e w l t)
              * prm.bcoeff l (chan (spinOf nup e) t) := by
    rw [← Finset.sum_add_distrib]
    refine Finset.sum_congr rfl fun l _ => ?_
    simp only [ui_bvalues, eq_self_iff_true, true_and]
    by_cases hup : (e : ℕ) < nup
    · have hse : spinOf nup e = 0 := by simp [spinOf, hup]
      rw [hse]
      simp [Fin.sum_univ_three, Fin.sum_univ_two, chan00, chan01]
      ring
    · have hse : spinOf nup e = 1 := by simp [spinOf, hup]
      rw [hse]
      simp [Fin.sum_univ_three, Fin.sum_univ_two, chan10, chan11]
      ring
  have hAsum : ∑ I : Fin natm, ∑ k : Fin aexpand, ∑ s : Fin 2,
        (updateinternals B nup st e epos (fun _ => true)).avalues w I k s
          * prm.acoeff I k s
      = (∑ I : Fin natm, ∑ k : Fin aexpand, ∑ s : Fin 2,
          st.avalues w I k s * prm.acoeff I k s)
        + ∑ I : Fin natm, ∑ k : Fin aexpand,
            (aUpdate B epos w I k - st.aPartial e w I k)
              * prm.acoeff I k (spinOf nup e) := by
    rw [← Finset.sum_add_distrib]
    refine Finset.sum_congr rfl fun I _ => ?_
    rw [← Finset.sum_add_distrib]
    refine Finset.sum_congr rfl fun k _ => ?_
    simp only [ui_avalues, eq_self_iff_true, true_and]
    by_cases hup : (e : ℕ) < nup
    · have hse : spinOf nup e = 0 := by simp [spinOf, hup]
      rw [hse]
      simp [Fin.sum_univ_two]
      ring
    · have hse : spinOf nup e = 1 := by simp [spinOf, hup]
      rw [hse]
      simp [Fin.sum_univ_two]
      ring
  rw [hBsum, hAsum]
  ring

/-- C2: the `(sign, logvalue)` pair after binding the engine by `recompute` on
any initial ensemble (the trivial initial state — the caches exist only once a
recompute has built them) and then committing, via `updateinternals`
sequentially for every particle, the move to the target positions, equals the
pair `recompute` itself returns on the target ensemble.  In the real-number
model the agreement is exact, hence within any floating-point tolerance. -/
theorem incremental_updates_match_recompute
    (B : Basis P natm aexpand nexpand) (prm : Params natm aexpand nexpand) (nup : ℕ)
    (hb : BvalSymm B) (c0 target : Fin nconf → Fin nelec → P) :
    value prm (applyAll B nup (recompute B prm nup c0).2 target)
      = (recompute B prm nup target).1 := by
  obtain ⟨hinv, hcfg⟩ :=
    foldl_updates B nup hb target (List.finRange nelec) (recomputeState B nup c0)
      (invAll_recompute B nup c0)
  have hconfigs : (applyAll B nup (recomputeState B nup c0) target).configs = target := by
    funext w i
    have h := hcfg w i
    rw [if_pos (List.mem_finRange i)] at h
    exact h
  calc value prm (applyAll B nup (recompute B prm nup c0).2 target)
      = value prm (recomputeState B nup
          (applyAll B nup (recomputeState B nup c0) target).configs) :=
        value_of_invAll B nup prm (fun w => hinv w)
    _ = (recompute B prm nup target).1 := by rw [hconfigs]; rfl

/-- C3: the invariants I1 (`avalues` is the spin-resolved sum of `a_partial`),
I2 (`bvalues` holds the triangular same-spin pair sums with no double counting
and the full up-down cross sum) and I3 (`b_partial[e]` sums over partners
excluding `e` itself) hold at every walker after a full recompute, and are
preserved by every `updateinternals` call at every masked walker. -/
theorem invariants_after_recompute_and_update
    (B : Basis P natm aexpand nexpand) (nup : ℕ) (hb : BvalSymm B) :
    (∀ (configs : Fin nconf → Fin nelec → P) (w : Fin nconf),
      inv1 nup (recomputeState B nup configs) w
        ∧ inv2 B nup (recomputeState B nup configs) w
        ∧ inv3 B nup (recomputeState B nup configs) w)
    ∧ ∀ (st : JState P nconf nelec natm aexpand nexpand) (e : Fin nelec)
        (epos : Fin nconf → P) (mask : Fin nconf → Bool) (w : Fin nconf),
        mask w = true →
        inv1 nup st w → inv2 B nup st w → inv3 B nup st w →
        inv1 nup (updateinternals B nup st e epos mask) w
          ∧ inv2 B nup (updateinternals B nup st e epos mask) w
          ∧ inv3 B nup (updateinternals B nup st e epos mask) w := by
  refine ⟨fun configs w =>
    ⟨fun _ _ _ => rfl, fun _ _ => rfl, fun _ _ _ => rfl⟩, ?_⟩
  intro st e epos mask w hm h1 h2 h3
  exact ⟨inv1_preserved B nup h1 hm, inv2_preserved B nup hb h2 h3 hm,
    inv3_preserved B nup hb h3 hm⟩

/-- C4: at every walker whose mask entry is false, `updateinternals` leaves
every cache entry (`avalues`, `bvalues`, `a_partial`, `b_partial`) and the
bound snapshot position unchanged. -/
theorem updateinternals_mask_frame
    (B : Basis P natm aexpand nexpand) (nup : ℕ)
    (st : JState P nconf nelec natm aexpand nexpand) (e : Fin nelec)
    (epos : Fin nconf → P) (mask : Fin nconf → Bool) (w : Fin nconf)
    (hm : mask w = false) :
    (∀ i, (updateinternals B nup st e epos mask).configs w i = st.configs w i)
    ∧ (∀ I k s, (updateinternals B nup st e epos mask).avalues w I k s
        = st.avalues w I k s)
    ∧ (∀ l c, (updateinternals B nup st e epos mask).bvalues w l c
        = st.bvalues w l c)
    ∧ (∀ e2 I k, (updateinternals B nup st e epos mask).aPartial e2 w I k
        = st.aPartial e2 w I k)
    ∧ ∀ e2 l s, (updateinternals B nup st e epos mask).bPartial e2 w l s
        = st.bPartial e2 w l s := by
  refine ⟨fun i => ?_, fun I k s => ?_, fun l c => ?_, fun e2 I k => ?_,
    fun e2 l s => ?_⟩
  all_goals
    simp [ui_configs, ui_avalues, ui_bvalues, ui_aPartial, ui_bPartial, hm]

/-- C5: `testvalue` is a pure query: the engine state after a call is the
state before it — the state component of its translation is the input state
unchanged (the method body only reads caches; its helpers `_a_update` and
`_b_update` perform no writes). -/
theorem testvalue_no_mutation
    (B : Basis P natm aexpand nexpand) (prm : Params natm aexpand nexpand)
    (nup : ℕ) (st : JState P nconf nelec natm aexpand nexpand) (e : Fin nelec)
    (epos : Fin nconf → P) (mask : Fin nconf → Bool) :
    (testvalueM B prm nup st e epos mask).1 = st := rfl

/-- C6: the scalar output of `gradient_laplacian` equals the
coefficient-weighted sum of basis Laplacians (the Laplacian of U, `lapOfU`)
plus the squared norm of the returned gradient, per walker — the identity
`Δ(e^U)/e^U = ΔU + |∇U|²` — and `laplacian` returns this same value. -/
theorem gradient_laplacian_exp_identity
    (B : Basis P natm aexpand nexpand) (prm : Params natm aexpand nexpand)
    (nup : ℕ) (st : JState P nconf nelec natm aexpand nexpand) (e : Fin nelec)
    (epos : Fin nconf → P) :
    (∀ w, (gradient_laplacian B prm nup st e epos).2 w
        = lapOfU B prm nup st e epos w
          + ∑ d : Fin 3, ((gradient_laplacian B prm nup st e epos).1 d w) ^ 2)
    ∧ laplacian B prm nup st e epos = (gradient_laplacian B prm nup st e epos).2 :=
  ⟨fun _ => rfl, rfl⟩

/-! Machinery for the parameter gradient: `U` is linear in each coefficient
entry, so perturbing one entry changes `U` affinely with slope the matching
cache entry. -/

lemma sum_mul_ite_eq {m : ℕ} (c : Fin m) (bv bc : Fin m → ℝ) (t : ℝ) :
    ∑ c2 : Fin m, bv c2 * (if c2 = c then t else bc c2)
      = (∑ c2 : Fin m, bv c2 * bc c2) - bv c * bc c + bv c * t := by
  have h : ∀ c2 : Fin m, bv c2 * (if c2 = c then t else bc c2)
      = (if c2 = c then bv c * t else bv c2 * bc c2) := by
    intro c2
    by_cases hc : c2 = c
    · subst hc
      rw [if_pos rfl, if_pos rfl]
    · rw [if_neg hc, if_neg hc]
  rw [Finset.sum_congr rfl (fun c2 _ => h c2),
    sum_if_update_mem (Finset.mem_univ c) (fun c2 => bv c2 * bc c2) (bv c * t)]

lemma sum2_mul_ite_eq {m1 m2 : ℕ} (l : Fin m1) (c : Fin m2)
    (bv bc : Fin m1 → Fin m2 → ℝ) (t : ℝ) :
    ∑ l2 : Fin m1, ∑ c2 : Fin m2,
        bv l2 c2 * (if l2 = l ∧ c2 = c then t else bc l2 c2)
      = (∑ l2 : Fin m1, ∑ c2 : Fin m2, bv l2 c2 * bc l2 c2)
        - bv l c * bc l c + bv l c * t := by
  have houter : ∀ l2 : Fin m1,
      ∑ c2 : Fin m2, bv l2 c2 * (if l2 = l ∧ c2 = c then t else bc l2 c2)
        = (if l2 = l
            then (∑ c2 : Fin m2, bv l c2 * bc l c2) - bv l c * bc l c + bv l c * t
            else ∑ c2 : Fin m2, bv l2 c2 * bc l2 c2) := by
    intro l2
    by_cases hl2 : l2 = l
    · subst hl2
      rw [if_pos rfl]
      have hcongr : ∀ c2 : Fin m2,
          bv l2 c2 * (if l2 = l2 ∧ c2 = c then t else bc l2 c2)
            = bv l2 c2 * (if c2 = c then t else bc l2 c2) := by
        intro c2
        by_cases hc : c2 = c
        · rw [if_pos ⟨rfl, hc⟩, if_pos hc]
        · rw [if_neg (fun hq => hc hq.2), if_neg hc]
      rw [Finset.sum_congr rfl fun c2 _ => hcongr c2, sum_mul_ite_eq c (bv l2) (bc l2) t]
    · rw [if_neg hl2]
      refine Finset.sum_congr rfl fun c2 _ => ?_
      rw [if_neg (fun hq => hl2 hq.1)]
  rw [Finset.sum_congr rfl fun l2 _ => houter l2,
    sum_if_update_mem (Finset.mem_univ l)
      (fun l2 => ∑ c2 : Fin m2, bv l2 c2 * bc l2 c2) _]
  ring

lemma sum3_mul_ite_eq {m1 m2 m3 : ℕ} (I : Fin m1) (k : Fin m2) (s : Fin m3)
    (av ac : Fin m1 → Fin m2 → Fin m3 → ℝ) (t : ℝ) :
    ∑ I2 : Fin m1, ∑ k2 : Fin m2, ∑ s2 : Fin m3,
        av I2 k2 s2 * (if I2 = I ∧ k2 = k ∧ s2 = s then t else ac I2 k2 s2)
      = (∑ I2 : Fin m1, ∑ k2 : Fin m2, ∑ s2 : Fin m3, av I2 k2 s2 * ac I2 k2 s2)
        - av I k s * ac I k s + av I k s * t := by
  have houter : ∀ I2 : Fin m1,
      ∑ k2 : Fin m2, ∑ s2 : Fin m3,
          av I2 k2 s2 * (if I2 = I ∧ k2 = k ∧ s2 = s then t else ac I2 k2 s2)
        = (if I2 = I
            then (∑ k2 : Fin m2, ∑ s2 : Fin m3, av I k2 s2 * ac I k2 s2)
              - av I k s * ac I k s + av I k s * t
            else ∑ k2 : Fin m2, ∑ s2 : Fin m3, av I2 k2 s2 * ac I2 k2 s2) := by
    intro I2
    by_cases hI2 : I2 = I
    · subst hI2
      rw [if_pos rfl]
      have hcongr : ∀ (k2 : Fin m2) (s2 : Fin m3),
          av I2 k2 s2 * (if I2 = I2 ∧ k2 = k ∧ s2 = s then t else ac I2 k2 s2)
            = av I2 k2 s2 * (if k2 = k ∧ s2 = s then t else ac I2 k2 s2) := by
        intro k2 s2
        by_cases hc : k2 = k ∧ s2 = s
        · rw [if_pos ⟨rfl, hc⟩, if_pos hc]
        · rw [if_neg (fun hq => hc hq.2), if_neg hc]
      rw [Finset.sum_congr rfl fun k2 _ => Finset.sum_congr rfl fun s2 _ => hcongr k2 s2,
        sum2_mul_ite_eq k s (av I2) (ac I2) t]
    · rw [if_neg hI2]
      refine Finset.sum_congr rfl fun k2 _ => Finset.sum_congr rfl fun s2 _ => ?_
      rw [if_neg (fun hq => hI2 hq.1)]
  rw [Finset.sum_congr rfl fun I2 _ => houter I2,
    sum_if_update_mem (Finset.mem_univ I)
      (fun I2 => ∑ k2 : Fin m2, ∑ s2 : Fin m3, av I2 k2 s2 * ac I2 k2 s2) _]
  ring

/-- C7: `pgradient` returns exactly the cached `bvalues` (key `"bcoeff"`) and
`avalues` (key `"acoeff"`), and these are the derivatives of the logvalue `U`
with respect to each coefficient entry: perturbing any single `bcoeff` or
`acoeff` entry, `U` has derivative equal to the matching cache entry (U is
linear in the coefficients). -/
theorem pgradient_is_coeff_derivative
    (st : JState P nconf nelec natm aexpand nexpand) (prm : Params natm aexpand nexpand) :
    (pgradient st).1 = st.bvalues ∧ (pgradient st).2 = st.avalues
    ∧ (∀ (l : Fin nexpand) (c : Fin 3) (w : Fin nconf) (t0 : ℝ),
        HasDerivAt (fun t : ℝ =>
          (value ⟨prm.acoeff,
            fun l2 c2 => if l2 = l ∧ c2 = c then t else prm.bcoeff l2 c2⟩ st).2 w)
          ((pgradient st).1 w l c) t0)
    ∧ ∀ (I : Fin natm) (k : Fin aexpand) (s : Fin 2) (w : Fin nconf) (t0 : ℝ),
        HasDerivAt (fun t : ℝ =>
          (value ⟨fun I2 k2 s2 => if I2 = I ∧ k2 = k ∧ s2 = s then t
              else prm.acoeff I2 k2 s2, prm.bcoeff⟩ st).2 w)
          ((pgradient st).2 w I k s) t0 := by
  refine ⟨rfl, rfl, fun l c w t0 => ?_, fun I k s w t0 => ?_⟩
  · have hfun : (fun t : ℝ =>
        (value ⟨prm.acoeff,
          fun l2 c2 => if l2 = l ∧ c2 = c then t else prm.bcoeff l2 c2⟩ st).2 w)
        = fun t : ℝ => st.bvalues w l c * t
            + (((∑ l2 : Fin nexpand, ∑ c2 : Fin 3,
                  st.bvalues w l2 c2 * prm.bcoeff l2 c2)
                - st.bvalues w l c * prm.bcoeff l c)
              + ∑ I2 : Fin natm, ∑ k2 : Fin aexpand, ∑ s2 : Fin 2,
                  st.avalues w I2 k2 s2 * prm.acoeff I2 k2 s2) := by
      funext t
      simp only [value]
      rw [sum2_mul_ite_eq l c]
      ring
    rw [show (pgradient st).1 w l c = st.bvalues w l c from rfl, hfun]
    simpa using ((hasDerivAt_id' t0).const_mul (st.bvalues w l c)).add_const _
  · have hfun : (fun t : ℝ =>
        (value ⟨fun I2 k2 s2 => if I2 = I ∧ k2 = k ∧ s2 = s then t
            else prm.acoeff I2 k2 s2, prm.bcoeff⟩ st).2 w)
        = fun t : ℝ => st.avalues w I k s * t
            + (((∑ I2 : Fin natm, ∑ k2 : Fin aexpand, ∑ s2 : Fin 2,
                  st.avalues w I2 k2 s2 * prm.acoeff I2 k2 s2)
                - st.avalues w I k s * prm.acoeff I k s)
              + ∑ l2 : Fin nexpand, ∑ c2 : Fin 3,
                  st.bvalues w l2 c2 * prm.bcoeff l2 c2) := by
      funext t
      simp only [value]
      rw [sum3_mul_ite_eq I k s]
      ring
    rw [show (pgradient st).2 w I k s = st.avalues w I k s from rfl, hfun]
    simpa using ((hasDerivAt_id' t0).const_mul (st.avalues w I k s)).add_const _

/-- C8: the sign component returned by `recompute` and by `value()` is always
`+1`, and the logvalue component of `value()` is a function of the cached
`avalues`/`bvalues` alone — two states with equal caches yield equal
logvalues, with no recomputation of basis functions or distances (the
definition reads neither the snapshot nor the basis). -/
theorem value_sign_one_and_cache_only
    (B : Basis P natm aexpand nexpand) (prm : Params natm aexpand nexpand)
    (nup : ℕ) :
    (∀ configs : Fin nconf → Fin nelec → P, (recompute B prm nup configs).1.1 = 1)
    ∧ (∀ st : JState P nconf nelec natm aexpand nexpand, (value prm st).1 = 1)
    ∧ ∀ st st' : JState P nconf nelec natm aexpand nexpand,
        st.avalues = st'.avalues → st.bvalues = st'.bvalues →
        (value prm st).2 = (value prm st').2 := by
  refine ⟨fun _ => rfl, fun _ => rfl, fun st st' ha hbv => ?_⟩
  simp only [value]
  rw [ha, hbv]

/-- C9: `updateinternals` with a mask whose length differs from the walker
count aborts (numpy boolean indexing rejects it before any cache is written);
no truncation, broadcast, or sentinel value is produced. -/
theorem updateinternals_mask_length_mismatch_aborts
    (B : Basis P natm aexpand nexpand) (nup : ℕ)
    (st : JState P nconf nelec natm aexpand nexpand) (e : Fin nelec)
    (epos : Fin nconf → P) (mask : List Bool) (h : mask.length ≠ nconf) :
    updateinternalsChk B nup st e epos mask = none := by
  rw [updateinternalsChk, dif_neg h]

/-- C10: with the mask argument omitted (`None`), `updateinternals` and
`testvalue` behave exactly as with an explicit all-true mask of walker-count
length, and `testvalue` then returns a ratio for every walker. -/
theorem default_mask_is_all_true
    (B : Basis P natm aexpand nexpand) (prm : Params natm aexpand nexpand)
    (nup : ℕ) (st : JState P nconf nelec natm aexpand nexpand) (e : Fin nelec)
    (epos : Fin nconf → P) :
    updateinternalsOpt B nup st e epos none
      = updateinternals B nup st e epos (fun _ => true)
    ∧ testvalueOpt B prm nup st e epos none
      = testvalue B prm nup st e epos (fun _ => true)
    ∧ ∀ w, (testvalueOpt B prm nup st e epos none w).isSome = true :=
  ⟨rfl, rfl, fun _ => rfl⟩

/-! ## Concrete instances for the witnesses: one walker, one up and one down
electron, one ion, one basis function of each kind, all values zero. -/

/-- A trivial basis over the one-point position type. -/
def unitBasis : Basis Unit 1 1 1 where
  atom := fun _ => ()
  aval := fun _ _ _ => 0
  bval := fun _ _ _ => 0
  agrad := fun _ _ _ _ => 0
  alap := fun _ _ _ _ => 0
  bgrad := fun _ _ _ _ => 0
  blap := fun _ _ _ _ => 0

/-- All-zero coefficient tensors. -/
def zeroParams : Params 1 1 1 where
  acoeff := fun _ _ _ => 0
  bcoeff := fun _ _ => 0

/-- One walker, two electrons, all at the single point. -/
def unitConfigs : Fin 1 → Fin 2 → Unit := fun _ _ => ()

/-- The state bound by `recompute` on `unitConfigs`. -/
def unitState : JState Unit 1 2 1 1 1 := recomputeState unitBasis 1 unitConfigs

theorem incremental_updates_match_recompute_witness :
    value zeroParams
        (applyAll unitBasis 1 (recompute unitBasis zeroParams 1 unitConfigs).2 unitConfigs)
      = (recompute unitBasis zeroParams 1 unitConfigs).1 :=
  incremental_updates_match_recompute unitBasis zeroParams 1 (fun _ _ _ => rfl)
    unitConfigs unitConfigs

theorem invariants_after_recompute_and_update_witness :
    inv1 1 (updateinternals unitBasis 1 unitState 0 (fun _ => ()) (fun _ => true)) 0
      ∧ inv2 unitBasis 1
          (updateinternals unitBasis 1 unitState 0 (fun _ => ()) (fun _ => true)) 0
      ∧ inv3 unitBasis 1
          (updateinternals unitBasis 1 unitState 0 (fun _ => ()) (fun _ => true)) 0 :=
  (invariants_after_recompute_and_update unitBasis 1 (fun _ _ _ => rfl)).2
    unitState 0 (fun _ => ()) (fun _ => true) 0 rfl
    ((invariants_after_recompute_and_update unitBasis 1 (fun _ _ _ => rfl)).1
      unitConfigs 0).1
    ((invariants_after_recompute_and_update unitBasis 1 (fun _ _ _ => rfl)).1
      unitConfigs 0).2.1
    ((invariants_after_recompute_and_update unitBasis 1 (fun _ _ _ => rfl)).1
      unitConfigs 0).2.2

theorem updateinternals_mask_frame_witness :
    (updateinternals unitBasis 1 unitState 0 (fun _ => ()) (fun _ => false)).bvalues 0 0 0
      = unitState.bvalues 0 0 0 :=
  (updateinternals_mask_frame unitBasis 1 unitState 0 (fun _ => ())
    (fun _ => false) 0 rfl).2.2.1 0 0

theorem value_sign_one_and_cache_only_witness :
    (recompute unitBasis zeroParams 1 unitConfigs).1.1 = 1
    ∧ (value zeroParams unitState).1 = 1
    ∧ (value zeroParams unitState).2 = (value zeroParams unitState).2 :=
  ⟨(value_sign_one_and_cache_only unitBasis zeroParams 1).1 unitConfigs,
    (value_sign_one_and_cache_only unitBasis zeroParams 1).2.1 unitState,
    (value_sign_one_and_cache_only unitBasis zeroParams 1).2.2 unitState unitState
      rfl rfl⟩

theorem updateinternals_mask_length_mismatch_aborts_witness :
    updateinternalsChk unitBasis 1 unitState 0 (fun _ => ()) [] = none :=
  updateinternals_mask_length_mismatch_aborts unitBasis 1 unitState 0 (fun _ => ())
    [] (by decide)

end PyqmcJastrow
